import Mathlib

/-!
MicroFlo, AVR 8-bit IO backend (`microflo/avr.hpp`)

A shallow embedding of the `Avr8IO` class: the memory-mapped 8-bit registers,
the static `ports` table, the pin macros `avrPinSet` / `avrPinClear` /
`avrPinGet`, the millisecond counter `g_millis` with its interrupt handler,
the constructor and every member function.

Conventions.
* An 8-bit register holds a `Nat`; every store truncates with `% 256`.
  `Machine.Valid` says that every register holds a value below 256 and that
  the counter is a value of a 32-bit `long` (avr-gcc).
* `int` is 16 bits wide on this target, so `~x` on a promoted operand is the
  16-bit complement `0xFFFF ^^^ x`.
* An access through `ports[i]` with `i` outside the table is undefined in C;
  the embedding returns `none` there.
-/

namespace MicroFlo

/-! ## Registers and the port table -/

/-- The special function registers named in `avr.hpp`. -/
inductive Reg where
  | DDRA | PINA | PORTA
  | DDRB | PINB | PORTB
  | DDRC | PINC | PORTC
  | DDRD | PIND | PORTD
  | DDRE | PINE | PORTE
  | DDRF | PINF | PORTF
  | TCCR1B | OCR1AH | OCR1AL | TIMSK1
  deriving DecidableEq, Repr, Fintype

/-- The struct `AvrPort`: the three register addresses of one 8-pin port. -/
structure AvrPort where
  DDR : Reg
  PIN : Reg
  PORT : Reg
  deriving DecidableEq, Repr

/-- The table `static const AvrPort ports[6]`. -/
def ports : List AvrPort :=
  [ ⟨.DDRA, .PINA, .PORTA⟩,
    ⟨.DDRB, .PINB, .PORTB⟩,
    ⟨.DDRC, .PINC, .PORTC⟩,
    ⟨.DDRD, .PIND, .PORTD⟩,
    ⟨.DDRE, .PINE, .PORTE⟩,
    ⟨.DDRF, .PINF, .PORTF⟩ ]

/-! ## Diagnostics and mode enumerations (declared in `microflo.h`) -/

/-- Modelled from the spec: the severity enumeration of the diagnostic channel,
declared in `microflo.h` which is not part of the sources at hand. Only the
enumerator used by `avr.hpp` is named; `other` stands for the remaining ones. -/
inductive DebugLevel where
  | DebugLevelError
  | other (raw : Nat)
  deriving DecidableEq, Repr

/-- Modelled from the spec: the symbolic diagnostic codes, declared in
`microflo.h`. Only the code used by `avr.hpp` is named. -/
inductive DebugId where
  | DebugIoOperationNotImplemented
  | other (raw : Nat)
  deriving DecidableEq, Repr

/-- Modelled from the spec: the enumeration `IO::PinMode` of `microflo.h`. Its two
enumerators are named; `other raw` is a variable of the enumeration type
holding a value `raw` that is not the value of a named enumerator. -/
inductive PinMode where
  | InputPin
  | OutputPin
  | other (raw : Nat)
  deriving DecidableEq, Repr

/-- Modelled from the spec: the enumeration `IO::PullupMode` of `microflo.h`, with
the enumerators "no pull" and "pull-up enabled"; `other raw` is a variable
holding a value `raw` that is not the value of a named enumerator. -/
inductive PullupMode where
  | PullNone
  | PullUp
  | other (raw : Nat)
  deriving DecidableEq, Repr

/-- Modelled from the spec: the enumeration `IO::Interrupt::Mode` of `microflo.h`;
`AttachExternalInterrupt` never inspects it, so it is kept as its raw value. -/
structure InterruptMode where
  raw : Nat
  deriving DecidableEq, Repr

/-! ## Machine state -/

/-- Everything `avr.hpp` reads or writes: the registers, the file-scope counter
`g_millis`, and the diagnostics received so far by the `debug` handler
(oldest first). -/
structure Machine where
  mem : Reg → Nat
  g_millis : Int
  debug : List (DebugLevel × DebugId)

/-- Store to a `volatile uint8_t` register: the value is truncated to 8 bits. -/
def Machine.store (s : Machine) (r : Reg) (v : Nat) : Machine :=
  { s with mem := fun x => if x = r then v % 256 else s.mem x }

/-- Number of bits of a `long` with avr-gcc. -/
def LONG_BITS : Nat := 32

/-- Reduction of an integer to the signed two's complement range of a `long`. -/
def wrapLong (x : Int) : Int :=
  (x + 2 ^ (LONG_BITS - 1)) % 2 ^ LONG_BITS - 2 ^ (LONG_BITS - 1)

/-- The values a `long` can hold. -/
def IsLong (x : Int) : Prop :=
  -(2 ^ (LONG_BITS - 1)) ≤ x ∧ x < 2 ^ (LONG_BITS - 1)

instance (x : Int) : Decidable (IsLong x) := by
  unfold IsLong; infer_instance

/-- A state the hardware can be in: 8-bit registers, a `long` counter. -/
def Machine.Valid (s : Machine) : Prop :=
  (∀ r, s.mem r < 256) ∧ IsLong s.g_millis

instance (s : Machine) : Decidable s.Valid := by
  unfold Machine.Valid; infer_instance

/-- State at reset: all registers zero, `g_millis = 0`, nothing reported. -/
def Machine.init : Machine :=
  { mem := fun _ => 0, g_millis := 0, debug := [] }

/-- Modelled from the spec: the macro `MICROFLO_DEBUG(handler, level, code)` of
`microflo.h`, which hands one severity and one code to the diagnostic
channel; the channel is modelled as a log that grows by one entry. -/
def MICROFLO_DEBUG (s : Machine) (level : DebugLevel) (code : DebugId) : Machine :=
  { s with debug := s.debug ++ [(level, code)] }

/-! ## Pin macros -/

/-- The avr-libc macro `_BV(bit)`, which is `(1 << (bit))`. -/
def _BV (bit : Nat) : Nat := 1 <<< bit

/-- The 16-bit complement `~x` of an `int` operand. -/
def intNot (x : Nat) : Nat := 0xFFFF ^^^ x

/-- Select a register of a port descriptor, as the macro argument `REG` does. -/
inductive RegSel where
  | DDR | PIN | PORT
  deriving DecidableEq, Repr, Fintype

/-- The member `.REG` of a port descriptor. -/
def AvrPort.sel (p : AvrPort) : RegSel → Reg
  | .DDR => p.DDR
  | .PIN => p.PIN
  | .PORT => p.PORT

/-- The macro `avrPinSet(REG, pinNumber)`:
`*ports[pinNumber/8].REG |= _BV(pinNumber % 8)`. -/
def avrPinSet (s : Machine) (REG : RegSel) (pinNumber : Nat) : Option Machine :=
  match ports[pinNumber / 8]? with
  | none => none
  | some port =>
    some (s.store (port.sel REG) (s.mem (port.sel REG) ||| _BV (pinNumber % 8)))

/-- The macro `avrPinClear(REG, pinNumber)`:
`*ports[pinNumber/8].REG &= ~_BV(pinNumber % 8)`. -/
def avrPinClear (s : Machine) (REG : RegSel) (pinNumber : Nat) : Option Machine :=
  match ports[pinNumber / 8]? with
  | none => none
  | some port =>
    some (s.store (port.sel REG) (s.mem (port.sel REG) &&& intNot (_BV (pinNumber % 8))))

/-- The macro `avrPinGet(REG, pinNumber)`:
`*ports[pinNumber/8].REG & _BV(pinNumber % 8)`, an `int`. -/
def avrPinGet (s : Machine) (REG : RegSel) (pinNumber : Nat) : Option Nat :=
  match ports[pinNumber / 8]? with
  | none => none
  | some port => some (s.mem (port.sel REG) &&& _BV (pinNumber % 8))

/-! ## Timer -/

/-- The handler `ISR (TIMER1_COMPA_vect)`: `g_millis++`, wrapping in the
32-bit two's complement representation. -/
def ISR_TIMER1_COMPA_vect (s : Machine) : Machine :=
  { s with g_millis := wrapLong (s.g_millis + 1) }

/-- The macro `MILLISECOND_OVERFLOW`, `((F_CPU / 1000) / 8)`; `F_CPU` is supplied
by the build. -/
def MILLISECOND_OVERFLOW (F_CPU : Nat) : Nat := (F_CPU / 1000) / 8

/-- Bit numbers from avr-libc `<avr/io.h>`. -/
def WGM12 : Nat := 3
/-- Bit number of the clock select bit CS11. -/
def CS11 : Nat := 1
/-- Bit number of the output compare A match interrupt enable. -/
def OCIE1A : Nat := 1

/-! ## The class `Avr8IO` -/

namespace Avr8IO

/-- The constructor `Avr8IO()`. -/
def ctor (F_CPU : Nat) (s : Machine) : Machine :=
  let s := s.store .TCCR1B ((1 <<< WGM12) ||| (1 <<< CS11))
  let s := s.store .OCR1AH (MILLISECOND_OVERFLOW F_CPU >>> 8)
  let s := s.store .OCR1AL (MILLISECOND_OVERFLOW F_CPU)
  s.store .TIMSK1 (s.mem .TIMSK1 ||| (1 <<< OCIE1A))

/-- The member `SerialBegin(serialDevice, baudrate)`. -/
def SerialBegin (s : Machine) (_serialDevice : Nat) (_baudrate : Int) : Machine :=
  MICROFLO_DEBUG s .DebugLevelError .DebugIoOperationNotImplemented

/-- The member `SerialDataAvailable(serialDevice)`; `return false` in a function
returning `long` yields 0. -/
def SerialDataAvailable (s : Machine) (_serialDevice : Nat) : Machine × Int :=
  (MICROFLO_DEBUG s .DebugLevelError .DebugIoOperationNotImplemented, 0)

/-- The member `SerialRead(serialDevice)`. -/
def SerialRead (s : Machine) (_serialDevice : Nat) : Machine × Nat :=
  (MICROFLO_DEBUG s .DebugLevelError .DebugIoOperationNotImplemented, 0)

/-- The member `SerialWrite(serialDevice, b)`. -/
def SerialWrite (s : Machine) (_serialDevice : Nat) (_b : Nat) : Machine :=
  MICROFLO_DEBUG s .DebugLevelError .DebugIoOperationNotImplemented

/-- The member `PinSetMode(pin, mode)`. -/
def PinSetMode (s : Machine) (pin : Nat) (mode : PinMode) : Option Machine :=
  if mode = .OutputPin then
    avrPinSet s .DDR pin
  else if mode = .InputPin then
    avrPinClear s .DDR pin
  else
    some s

/-- The member `PinSetPullup(pin, mode)`. -/
def PinSetPullup (s : Machine) (pin : Nat) (mode : PullupMode) : Option Machine :=
  if mode = .PullUp then
    avrPinSet s .PORT pin
  else if mode = .PullNone then
    avrPinClear s .PORT pin
  else
    some (MICROFLO_DEBUG s .DebugLevelError .DebugIoOperationNotImplemented)

/-- The member `DigitalWrite(pin, val)`. -/
def DigitalWrite (s : Machine) (pin : Nat) (val : Bool) : Option Machine :=
  if val then
    avrPinSet s .PORT pin
  else
    avrPinClear s .PORT pin

/-- The member `DigitalRead(pin)`: the `int` produced by `avrPinGet` converted to
`bool`, that is, compared with zero. -/
def DigitalRead (s : Machine) (pin : Nat) : Option Bool :=
  (avrPinGet s .PIN pin).map (fun v => decide (v ≠ 0))

/-- The member `AnalogRead(pin)`. -/
def AnalogRead (s : Machine) (_pin : Nat) : Machine × Int :=
  (MICROFLO_DEBUG s .DebugLevelError .DebugIoOperationNotImplemented, 0)

/-- The member `PwmWrite(pin, dutyPercent)`. -/
def PwmWrite (s : Machine) (_pin : Nat) (_dutyPercent : Int) : Machine :=
  MICROFLO_DEBUG s .DebugLevelError .DebugIoOperationNotImplemented

/-- The member `TimerCurrentMs()`, seen from the caller: a snapshot of `g_millis`
taken inside `ATOMIC_BLOCK(ATOMIC_FORCEON)`. -/
def TimerCurrentMs (s : Machine) : Int := s.g_millis

/-- The member `AttachExternalInterrupt(interrupt, mode, func, user)`; the callback
and the user pointer are kept as addresses. -/
def AttachExternalInterrupt (s : Machine) (_interrupt : Nat) (_mode : InterruptMode)
    (_func : Nat) (_user : Nat) : Machine :=
  MICROFLO_DEBUG s .DebugLevelError .DebugIoOperationNotImplemented

end Avr8IO

open Avr8IO

/-! ## Observations used in the statements -/

/-- Bit `pin % 8` of the register `REG` of the port of `pin`. -/
def pinBit (s : Machine) (REG : RegSel) (pin : Nat) : Option Bool :=
  (ports[pin / 8]?).map fun port => (s.mem (port.sel REG)).testBit (pin % 8)

/-- The test harness of the loop-back property: every input-state register
`PINx` is driven with the content of the output-state register `PORTx`. -/
def loopback (s : Machine) : Machine :=
  { s with mem := fun r =>
      match ports.find? (fun port => port.PIN = r) with
      | some port => s.mem port.PORT
      | none => s.mem r }

/-- Relation between the states before and after one bit of register `r` is
written with `v`: that bit holds `v`, all else is as before. -/
def BitWritten (s s' : Machine) (r : Reg) (b : Nat) (v : Bool) : Prop :=
  (s'.mem r).testBit b = v ∧
  (∀ x i, (x ≠ r ∨ i ≠ b) → (s'.mem x).testBit i = (s.mem x).testBit i) ∧
  (∀ x, x ≠ r → s'.mem x = s.mem x) ∧
  s'.g_millis = s.g_millis ∧ s'.debug = s.debug

/-! ## Interleavings of the timer interrupt with time queries -/

/-- One event of an execution as far as the clock is concerned. -/
inductive Event where
  /-- The handler `ISR (TIMER1_COMPA_vect)` runs once. -/
  | fire
  /-- The program calls `TimerCurrentMs()`. -/
  | query
  deriving DecidableEq, Repr

/-- The values returned by the `TimerCurrentMs` calls of an interleaving, in the
order of the calls. -/
def queryResults : Machine → List Event → List Int
  | _, [] => []
  | s, .fire :: es => queryResults (ISR_TIMER1_COMPA_vect s) es
  | s, .query :: es => TimerCurrentMs s :: queryResults s es

/-! ## Byte-level execution of `TimerCurrentMs`

The AVR moves one byte per load, so the assignment `millis = g_millis` is four
loads. `ATOMIC_BLOCK(ATOMIC_FORCEON)` expands to `cli()`, the block, `sei()`.
A compare match sets the interrupt flag `OCF1A`; the handler runs at the next
instruction boundary at which the global interrupt enable `I` is set. -/

/-- Byte `i` (0 is the least significant) of the two's complement
representation of a `long`. -/
def longByte (x : Int) (i : Nat) : Nat :=
  ((x % 2 ^ LONG_BITS) / 256 ^ i % 256).toNat

/-- The `long` represented by a list of bytes, least significant first. -/
def longOfBytes (bs : List Nat) : Int :=
  wrapLong (bs.foldr (fun b acc => (b : Int) + 256 * acc) 0)

/-- Processor state during the byte-level execution: the machine, the global
interrupt enable, the pending flag of the compare match interrupt, and the
bytes of the local variable `millis` loaded so far. -/
structure Cpu where
  m : Machine
  I : Bool
  OCF1A : Bool
  millis : List Nat

/-- The instructions `TimerCurrentMs` is made of. -/
inductive Instr where
  /-- Clear the global interrupt enable. -/
  | cli
  /-- Load the next byte of `g_millis` into `millis`. -/
  | load
  /-- Set the global interrupt enable. -/
  | sei
  deriving DecidableEq, Repr

/-- Execute one instruction. -/
def Cpu.exec (c : Cpu) : Instr → Cpu
  | .cli => { c with I := false }
  | .load => { c with millis := c.millis ++ [longByte c.m.g_millis c.millis.length] }
  | .sei => { c with I := true }

/-- At an instruction boundary: a pending compare match interrupt is served if
interrupts are enabled; the handler runs to completion and the flag is
cleared. -/
def Cpu.service (c : Cpu) : Cpu :=
  if c.I && c.OCF1A then
    { c with m := ISR_TIMER1_COMPA_vect c.m, OCF1A := false }
  else c

/-- A compare match occurring at an instruction boundary raises the flag. -/
def Cpu.raise (c : Cpu) (irq : Bool) : Cpu :=
  if irq then { c with OCF1A := true } else c

/-- Run a piece of code; `irq j` tells whether a compare match occurs at
boundary `j`, the boundary before instruction `j` (the last boundary follows
the last instruction). -/
def Cpu.runCode (irq : Nat → Bool) : Nat → Cpu → List Instr → Cpu
  | j, c, [] => (c.raise (irq j)).service
  | j, c, i :: is => Cpu.runCode irq (j + 1) (((c.raise (irq j)).service).exec i) is

/-- The body of `TimerCurrentMs`: `ATOMIC_BLOCK(ATOMIC_FORCEON) { millis = g_millis; }`. -/
def TimerCurrentMs_code : List Instr :=
  [.cli, .load, .load, .load, .load, .sei]

/-- The same read without the atomic block, for comparison. -/
def unguardedRead_code : List Instr :=
  [.load, .load, .load, .load]

/-- Byte-level `TimerCurrentMs()` entered with interrupt enable `I` and no
interrupt pending: the final processor state and the returned `millis`. -/
def Avr8IO.TimerCurrentMs_bytes (irq : Nat → Bool) (s : Machine) (I : Bool) : Cpu × Int :=
  let c := Cpu.runCode irq 0 ⟨s, I, false, []⟩ TimerCurrentMs_code
  (c, longOfBytes c.millis)

/-! ## Bit-level facts about the pin macros -/

theorem testBit_set_byte (r b i : Nat) :
    ((r ||| _BV b) % 256).testBit i
      = (decide (i < 8) && (r.testBit i || decide (b = i))) := by
  have h256 : (256 : Nat) = 2 ^ 8 := by norm_num
  rw [h256, Nat.testBit_mod_two_pow, Nat.testBit_or, _BV, Nat.one_shiftLeft,
    Nat.testBit_two_pow]

theorem testBit_clear_byte (r b i : Nat) :
    ((r &&& intNot (_BV b)) % 256).testBit i
      = (decide (i < 8) && (r.testBit i && !decide (b = i))) := by
  have h256 : (256 : Nat) = 2 ^ 8 := by norm_num
  have hff : (0xFFFF : Nat) = 2 ^ 16 - 1 := by norm_num
  rw [h256, Nat.testBit_mod_two_pow, Nat.testBit_and, intNot, Nat.testBit_xor, hff,
    Nat.testBit_two_pow_sub_one, _BV, Nat.one_shiftLeft, Nat.testBit_two_pow]
  by_cases h8 : i < 8
  · have h16 : i < 16 := by omega
    by_cases hbi : b = i <;> simp [h8, h16, hbi]
  · simp [h8]

theorem testBit_byte_high (r i : Nat) (hr : r < 256) (hi : 8 ≤ i) :
    r.testBit i = false := by
  apply Nat.testBit_lt_two_pow
  calc r < 2 ^ 8 := by simpa using hr
    _ ≤ 2 ^ i := Nat.pow_le_pow_right (by decide) hi

theorem and_BV_ne_zero (r b : Nat) : decide (r &&& _BV b ≠ 0) = r.testBit b := by
  rw [_BV, Nat.one_shiftLeft, Nat.and_two_pow]
  cases h : r.testBit b <;> simp [h]

/-! ## Stores -/

theorem store_mem_same (s : Machine) (r : Reg) (v : Nat) :
    (s.store r v).mem r = v % 256 := by
  simp [Machine.store]

theorem store_mem_other (s : Machine) (r x : Reg) (v : Nat) (h : x ≠ r) :
    (s.store r v).mem x = s.mem x := by
  simp [Machine.store, h]

theorem store_g_millis (s : Machine) (r : Reg) (v : Nat) :
    (s.store r v).g_millis = s.g_millis := rfl

theorem store_debug (s : Machine) (r : Reg) (v : Nat) :
    (s.store r v).debug = s.debug := rfl

theorem store_valid (s : Machine) (r : Reg) (v : Nat) (hs : s.Valid) :
    (s.store r v).Valid := by
  refine ⟨fun x => ?_, hs.2⟩
  by_cases h : x = r
  · subst h; rw [store_mem_same]; exact Nat.mod_lt _ (by decide)
  · rw [store_mem_other _ _ _ _ h]; exact hs.1 x

/-! ## The port table -/

theorem ports_length : ports.length = 6 := rfl

theorem ports_lookup (pin : Nat) (h : pin < 48) :
    ∃ port, ports[pin / 8]? = some port := by
  have hk : pin / 8 < ports.length := by rw [ports_length]; omega
  exact ⟨ports[pin / 8], List.getElem?_eq_getElem hk⟩

/-- No register occurs twice in the table, neither within a port nor across ports. -/
theorem ports_distinct :
    ∀ i : Fin 6, ∀ j : Fin 6, ∀ a b : RegSel,
      (ports[i.val]?).map (fun p => p.sel a) = (ports[j.val]?).map (fun p => p.sel b) →
        i = j ∧ a = b := by
  decide

theorem ports_sel_inj (i j : Nat) (pi pj : AvrPort) (a b : RegSel)
    (hi : ports[i]? = some pi) (hj : ports[j]? = some pj)
    (h : pi.sel a = pj.sel b) : i = j ∧ a = b := by
  have hil : i < 6 := by
    have := (List.getElem?_eq_some_iff.1 hi).1
    simpa [ports_length] using this
  have hjl : j < 6 := by
    have := (List.getElem?_eq_some_iff.1 hj).1
    simpa [ports_length] using this
  have := ports_distinct ⟨i, hil⟩ ⟨j, hjl⟩ a b (by simp [hi, hj, h])
  exact ⟨by simpa using congrArg Fin.val this.1, this.2⟩

/-! ## Effect of the pin macros on a valid pin -/

theorem avrPinSet_eq (s : Machine) (REG : RegSel) (pin : Nat) (port : AvrPort)
    (h : ports[pin / 8]? = some port) :
    avrPinSet s REG pin
      = some (s.store (port.sel REG) (s.mem (port.sel REG) ||| _BV (pin % 8))) := by
  simp [avrPinSet, h]

theorem avrPinClear_eq (s : Machine) (REG : RegSel) (pin : Nat) (port : AvrPort)
    (h : ports[pin / 8]? = some port) :
    avrPinClear s REG pin
      = some (s.store (port.sel REG)
          (s.mem (port.sel REG) &&& intNot (_BV (pin % 8)))) := by
  simp [avrPinClear, h]

/-- A store of `r | _BV(b)` sets bit `b` and keeps every other bit. -/
theorem store_set_bit (s : Machine) (r : Reg) (b : Nat) (hb : b < 8) :
    ((s.store r (s.mem r ||| _BV b)).mem r).testBit b = true := by
  rw [store_mem_same, testBit_set_byte]; simp [hb]

theorem store_clear_bit (s : Machine) (r : Reg) (b : Nat) :
    ((s.store r (s.mem r &&& intNot (_BV b))).mem r).testBit b = false := by
  rw [store_mem_same, testBit_clear_byte]; simp

theorem store_set_frame (s : Machine) (hs : s.Valid) (r x : Reg) (b i : Nat)
    (h : x ≠ r ∨ i ≠ b) :
    ((s.store r (s.mem r ||| _BV b)).mem x).testBit i = (s.mem x).testBit i := by
  by_cases hx : x = r
  · subst hx
    have hi : i ≠ b := by
      rcases h with h | h
      · exact absurd rfl h
      · exact h
    rw [store_mem_same, testBit_set_byte]
    by_cases h8 : i < 8
    · have : ¬ b = i := fun e => hi e.symm
      simp [h8, this]
    · rw [testBit_byte_high _ _ (hs.1 x) (by omega)]; simp [h8]
  · rw [store_mem_other _ _ _ _ hx]

theorem store_clear_frame (s : Machine) (hs : s.Valid) (r x : Reg) (b i : Nat)
    (h : x ≠ r ∨ i ≠ b) :
    ((s.store r (s.mem r &&& intNot (_BV b))).mem x).testBit i = (s.mem x).testBit i := by
  by_cases hx : x = r
  · subst hx
    have hi : i ≠ b := by
      rcases h with h | h
      · exact absurd rfl h
      · exact h
    rw [store_mem_same, testBit_clear_byte]
    by_cases h8 : i < 8
    · have : ¬ b = i := fun e => hi e.symm
      simp [h8, this]
    · rw [testBit_byte_high _ _ (hs.1 x) (by omega)]; simp [h8]
  · rw [store_mem_other _ _ _ _ hx]

/-- In the loop-back harness the input-state register of a port reads as its
output-state register. -/
theorem loopback_PIN (s : Machine) (k : Nat) (port : AvrPort)
    (h : ports[k]? = some port) : (loopback s).mem port.PIN = s.mem port.PORT := by
  have hk : k < 6 := by
    have := (List.getElem?_eq_some_iff.1 h).1
    simpa [ports_length] using this
  have key : ∀ j : Fin 6, (ports[j.val]?).bind
      (fun q => ports.find? (fun q2 => q2.PIN = q.PIN)) = ports[j.val]? := by decide
  have hfind := key ⟨k, hk⟩
  rw [show ports[(⟨k, hk⟩ : Fin 6).val]? = some port from h] at hfind
  change ports.find? (fun q2 => q2.PIN = port.PIN) = some port at hfind
  simp only [loopback, hfind]

theorem avrPinSet_written (s : Machine) (hs : s.Valid) (REG : RegSel) (pin : Nat)
    (port : AvrPort) (h : ports[pin / 8]? = some port) :
    ∃ s', avrPinSet s REG pin = some s' ∧
      BitWritten s s' (port.sel REG) (pin % 8) true :=
  ⟨_, avrPinSet_eq s REG pin port h,
    store_set_bit s _ _ (Nat.mod_lt _ (by decide)),
    fun x i hx => store_set_frame s hs _ x _ i hx,
    fun _ hx => store_mem_other _ _ _ _ hx, rfl, rfl⟩

theorem avrPinClear_written (s : Machine) (hs : s.Valid) (REG : RegSel) (pin : Nat)
    (port : AvrPort) (h : ports[pin / 8]? = some port) :
    ∃ s', avrPinClear s REG pin = some s' ∧
      BitWritten s s' (port.sel REG) (pin % 8) false :=
  ⟨_, avrPinClear_eq s REG pin port h,
    store_clear_bit s _ _,
    fun x i hx => store_clear_frame s hs _ x _ i hx,
    fun _ hx => store_mem_other _ _ _ _ hx, rfl, rfl⟩

/-- A write to the bit of pin `p` in register class `REG` leaves the bit of every
other (pin, register class) pair alone. -/
theorem BitWritten.pinBit_other {s s' : Machine} {p : Nat} {port : AvrPort}
    {REG : RegSel} {v : Bool} (hport : ports[p / 8]? = some port)
    (hw : BitWritten s s' (port.sel REG) (p % 8) v)
    (q : Nat) (REG2 : RegSel) (hq : q ≠ p ∨ REG2 ≠ REG) :
    pinBit s' REG2 q = pinBit s REG2 q := by
  unfold pinBit
  cases hpq : ports[q / 8]? with
  | none => rfl
  | some pq =>
    simp only [Option.map_some']
    congr 1
    apply hw.2.1
    by_cases hreg : pq.sel REG2 = port.sel REG
    · right
      have := ports_sel_inj _ _ _ _ _ _ hpq hport hreg
      rcases hq with hq | hq
      · omega
      · exact absurd this.2 hq
    · exact Or.inl hreg

/-! ## Pin operations -/

theorem init_valid : Machine.init.Valid :=
  ⟨fun _ => by simp [Machine.init], by decide⟩

/-- C1: for every valid pin `p < 48` and every boolean `v`, from any register
content, `PinSetMode(p, OutputPin)` followed by `DigitalWrite(p, v)` both
complete, and `DigitalRead(p)` then returns `v` in every state in which each
input-state register `PINx` holds what the output-state register `PORTx`
holds after the write, in particular in the loop-back harness. -/
theorem C1_write_then_read_loopback (s : Machine) (p : Nat) (hp : p < 48) (v : Bool) :
    ∃ s1 s2, PinSetMode s p .OutputPin = some s1 ∧
      DigitalWrite s1 p v = some s2 ∧
      DigitalRead (loopback s2) p = some v ∧
      (∀ s3 : Machine, (∀ port ∈ ports, s3.mem port.PIN = s2.mem port.PORT) →
        DigitalRead s3 p = some v) := by
  obtain ⟨port, hport⟩ := ports_lookup p hp
  have hb : p % 8 < 8 := Nat.mod_lt _ (by decide)
  obtain ⟨s1, h1⟩ : ∃ s1, PinSetMode s p .OutputPin = some s1 :=
    ⟨_, by simp only [PinSetMode, if_true]; exact avrPinSet_eq s .DDR p port hport⟩
  obtain ⟨s2, h2, hbit⟩ : ∃ s2, DigitalWrite s1 p v = some s2 ∧
      (s2.mem port.PORT).testBit (p % 8) = v := by
    cases v with
    | true =>
      exact ⟨_, by simp only [DigitalWrite, if_true]
                   exact avrPinSet_eq _ .PORT p port hport,
        store_set_bit _ _ _ hb⟩
    | false =>
      exact ⟨_, by simp only [DigitalWrite, Bool.false_eq_true, if_false]
                   exact avrPinClear_eq _ .PORT p port hport,
        store_clear_bit _ _ _⟩
  have hread : ∀ s3 : Machine, s3.mem port.PIN = s2.mem port.PORT →
      DigitalRead s3 p = some v := by
    intro s3 h3
    simp only [DigitalRead, avrPinGet, hport, Option.map_some', AvrPort.sel, h3,
      and_BV_ne_zero, hbit]
  exact ⟨s1, s2, h1, h2, hread _ (loopback_PIN _ _ _ hport),
    fun s3 h3 => hread s3 (h3 port (List.getElem?_mem hport))⟩

/-- Witness of C1: pin 13 of the reset state, written `true`. -/
theorem C1_write_then_read_loopback_witness :
    13 < 48 ∧ ∃ s1 s2, PinSetMode Machine.init 13 .OutputPin = some s1 ∧
      DigitalWrite s1 13 true = some s2 ∧
      DigitalRead (loopback s2) 13 = some true ∧
      (∀ s3 : Machine, (∀ port ∈ ports, s3.mem port.PIN = s2.mem port.PORT) →
        DigitalRead s3 13 = some true) :=
  ⟨by decide, C1_write_then_read_loopback Machine.init 13 (by decide) true⟩

/-- C5: for every valid pin `p < 48` and boolean `v`, `DigitalWrite(p, v)`
resolves `p` to entry `p / 8` of the port table, which exists, and to bit
`p % 8`; afterwards that bit of that port's output-state register equals `v`,
every other bit of every register is as before (so every other register is
unchanged), the counter and the diagnostics are untouched, and the output bit
of every other pin `q` is as before. -/
theorem C5_DigitalWrite_one_bit (s : Machine) (hs : s.Valid) (p : Nat) (hp : p < 48)
    (v : Bool) :
    p / 8 < ports.length ∧
    ∃ port s', ports[p / 8]? = some port ∧
      DigitalWrite s p v = some s' ∧
      (s'.mem port.PORT).testBit (p % 8) = v ∧
      (∀ r i, (r ≠ port.PORT ∨ i ≠ p % 8) →
        (s'.mem r).testBit i = (s.mem r).testBit i) ∧
      (∀ r, r ≠ port.PORT → s'.mem r = s.mem r) ∧
      s'.g_millis = s.g_millis ∧ s'.debug = s.debug ∧
      pinBit s' .PORT p = some v ∧
      (∀ q, q ≠ p → pinBit s' .PORT q = pinBit s .PORT q) := by
  obtain ⟨port, hport⟩ := ports_lookup p hp
  refine ⟨by rw [ports_length]; omega, port, ?_⟩
  have key : ∃ s', DigitalWrite s p v = some s' ∧
      BitWritten s s' (port.sel .PORT) (p % 8) v := by
    cases v with
    | true => simpa [DigitalWrite] using avrPinSet_written s hs .PORT p port hport
    | false => simpa [DigitalWrite] using avrPinClear_written s hs .PORT p port hport
  obtain ⟨s', hs', hw⟩ := key
  refine ⟨s', hport, hs', hw.1, hw.2.1, hw.2.2.1, hw.2.2.2.1, hw.2.2.2.2, ?_, ?_⟩
  · simp only [pinBit, hport, Option.map_some']
    exact congrArg some hw.1
  · intro q hq
    exact hw.pinBit_other hport q .PORT (Or.inl hq)

/-- Witness of C5: pin 42 of the reset state, written `true`. -/
theorem C5_DigitalWrite_one_bit_witness :
    Machine.init.Valid ∧ 42 < 48 ∧ 42 / 8 < ports.length ∧
    ∃ port s', ports[42 / 8]? = some port ∧
      DigitalWrite Machine.init 42 true = some s' ∧
      (s'.mem port.PORT).testBit (42 % 8) = true ∧
      (∀ r i, (r ≠ port.PORT ∨ i ≠ 42 % 8) →
        (s'.mem r).testBit i = (Machine.init.mem r).testBit i) ∧
      (∀ r, r ≠ port.PORT → s'.mem r = Machine.init.mem r) ∧
      s'.g_millis = Machine.init.g_millis ∧ s'.debug = Machine.init.debug ∧
      pinBit s' .PORT 42 = some true ∧
      (∀ q, q ≠ 42 → pinBit s' .PORT q = pinBit Machine.init .PORT q) :=
  ⟨init_valid, by decide,
    C5_DigitalWrite_one_bit Machine.init init_valid 42 (by decide) true⟩

/-- C6: for every valid pin `p < 48` and every register state,
`PinSetMode(p, InputPin)` completes and leaves the output-state register of
every port of the table unchanged; hence the output-state bit of every pin,
in particular of every other pin on the port of `p`, is as before. -/
theorem C6_PinSetMode_input_keeps_PORT (s : Machine) (p : Nat) (hp : p < 48) :
    ∃ s', PinSetMode s p .InputPin = some s' ∧
      (∀ port ∈ ports, s'.mem port.PORT = s.mem port.PORT) ∧
      (∀ q, q / 8 = p / 8 → q ≠ p → pinBit s' .PORT q = pinBit s .PORT q) ∧
      (∀ q, pinBit s' .PORT q = pinBit s .PORT q) := by
  obtain ⟨port, hport⟩ := ports_lookup p hp
  have hmem : ∀ port2 ∈ ports,
      (s.store port.DDR (s.mem port.DDR &&& intNot (_BV (p % 8)))).mem port2.PORT
        = s.mem port2.PORT := by
    intro port2 h2
    obtain ⟨j, hj, hget⟩ := List.getElem_of_mem h2
    apply store_mem_other
    intro heq
    have hj2 : ports[j]? = some port2 := by
      rw [List.getElem?_eq_getElem hj, hget]
    have := ports_sel_inj j (p / 8) port2 port .PORT .DDR hj2 hport heq
    exact absurd this.2 (by decide)
  have hbit : ∀ q, pinBit (s.store port.DDR (s.mem port.DDR &&& intNot (_BV (p % 8))))
      .PORT q = pinBit s .PORT q := by
    intro q
    unfold pinBit
    cases hq : ports[q / 8]? with
    | none => rfl
    | some pq =>
      have hin : pq ∈ ports := List.getElem?_mem hq
      simp only [Option.map_some', AvrPort.sel, hmem pq hin]
  refine ⟨_, ?_, hmem, fun q _ _ => hbit q, hbit⟩
  simpa [PinSetMode, AvrPort.sel] using avrPinClear_eq s .DDR p port hport

/-- Witness of C6: pin 10 of the reset state. -/
theorem C6_PinSetMode_input_keeps_PORT_witness :
    10 < 48 ∧ ∃ s', PinSetMode Machine.init 10 .InputPin = some s' ∧
      (∀ port ∈ ports, s'.mem port.PORT = Machine.init.mem port.PORT) ∧
      (∀ q, q / 8 = 10 / 8 → q ≠ 10 →
        pinBit s' .PORT q = pinBit Machine.init .PORT q) ∧
      (∀ q, pinBit s' .PORT q = pinBit Machine.init .PORT q) :=
  ⟨by decide, C6_PinSetMode_input_keeps_PORT Machine.init 10 (by decide)⟩

/-- C7: for every valid pin `p < 48` and every pull-up mode `m`,
`PinSetPullup(p, m)` completes; with `PullUp` bit `p % 8` of the output-state
register of port `p / 8` is set and no diagnostic is emitted; with `PullNone`
that bit is cleared and no diagnostic is emitted; with any other value exactly
one diagnostic (`DebugLevelError`, `DebugIoOperationNotImplemented`) is emitted
and no register changes. In all three cases every bit other than that one
output-state bit, and the counter, are as before. -/
theorem C7_PinSetPullup_cases (s : Machine) (hs : s.Valid) (p : Nat) (hp : p < 48)
    (m : PullupMode) :
    ∃ port s', ports[p / 8]? = some port ∧
      PinSetPullup s p m = some s' ∧
      (m = .PullUp →
        (s'.mem port.PORT).testBit (p % 8) = true ∧ s'.debug = s.debug) ∧
      (m = .PullNone →
        (s'.mem port.PORT).testBit (p % 8) = false ∧ s'.debug = s.debug) ∧
      (m ≠ .PullUp → m ≠ .PullNone →
        s'.debug = s.debug ++ [(.DebugLevelError, .DebugIoOperationNotImplemented)] ∧
        s'.mem = s.mem) ∧
      (∀ r i, (r ≠ port.PORT ∨ i ≠ p % 8) →
        (s'.mem r).testBit i = (s.mem r).testBit i) ∧
      s'.g_millis = s.g_millis := by
  obtain ⟨port, hport⟩ := ports_lookup p hp
  refine ⟨port, ?_⟩
  cases m with
  | PullUp =>
    obtain ⟨s', hs', hw⟩ := avrPinSet_written s hs .PORT p port hport
    exact ⟨s', hport, by simpa [PinSetPullup] using hs',
      fun _ => ⟨hw.1, hw.2.2.2.2⟩, (fun h => by cases h), fun h => absurd rfl h,
      hw.2.1, hw.2.2.2.1⟩
  | PullNone =>
    obtain ⟨s', hs', hw⟩ := avrPinClear_written s hs .PORT p port hport
    exact ⟨s', hport, by simpa [PinSetPullup] using hs',
      (fun h => by cases h), fun _ => ⟨hw.1, hw.2.2.2.2⟩, fun _ h => absurd rfl h,
      hw.2.1, hw.2.2.2.1⟩
  | other raw =>
    exact ⟨MICROFLO_DEBUG s .DebugLevelError .DebugIoOperationNotImplemented, hport,
      by simp [PinSetPullup],
      (fun h => by cases h), (fun h => by cases h), fun _ _ => ⟨rfl, rfl⟩,
      fun _ _ _ => rfl, rfl⟩

/-- Witness of C7: pin 21 of the reset state with an unnamed pull-up mode. -/
theorem C7_PinSetPullup_cases_witness :
    Machine.init.Valid ∧ 21 < 48 ∧
    ∃ port s', ports[21 / 8]? = some port ∧
      PinSetPullup Machine.init 21 (.other 7) = some s' ∧
      (PullupMode.other 7 = .PullUp →
        (s'.mem port.PORT).testBit (21 % 8) = true ∧ s'.debug = Machine.init.debug) ∧
      (PullupMode.other 7 = .PullNone →
        (s'.mem port.PORT).testBit (21 % 8) = false ∧ s'.debug = Machine.init.debug) ∧
      (PullupMode.other 7 ≠ .PullUp → PullupMode.other 7 ≠ .PullNone →
        s'.debug = Machine.init.debug
          ++ [(.DebugLevelError, .DebugIoOperationNotImplemented)] ∧
        s'.mem = Machine.init.mem) ∧
      (∀ r i, (r ≠ port.PORT ∨ i ≠ 21 % 8) →
        (s'.mem r).testBit i = (Machine.init.mem r).testBit i) ∧
      s'.g_millis = Machine.init.g_millis :=
  ⟨init_valid, by decide,
    C7_PinSetPullup_cases Machine.init init_valid 21 (by decide) (.other 7)⟩

/-- C8: for every valid pin `p < 48` and every pin mode `m`, `PinSetMode(p, m)`
completes; with `OutputPin` bit `p % 8` of the direction register of port
`p / 8` is set; with `InputPin` that bit is cleared; with any other value the
state is unchanged. In no case is a diagnostic emitted, and registers other
than that direction register keep their content; `PinSetPullup` on the same
pin with an unnamed mode does emit one diagnostic. -/
theorem C8_PinSetMode_cases (s : Machine) (p : Nat) (hp : p < 48) (m : PinMode) :
    ∃ port s', ports[p / 8]? = some port ∧
      PinSetMode s p m = some s' ∧
      (m = .OutputPin → (s'.mem port.DDR).testBit (p % 8) = true) ∧
      (m = .InputPin → (s'.mem port.DDR).testBit (p % 8) = false) ∧
      (m ≠ .OutputPin → m ≠ .InputPin → s' = s) ∧
      s'.debug = s.debug ∧
      (∀ r, r ≠ port.DDR → s'.mem r = s.mem r) ∧
      (∀ m2 : PullupMode, m2 ≠ .PullUp → m2 ≠ .PullNone →
        ∃ s2, PinSetPullup s p m2 = some s2 ∧
          s2.debug = s.debug ++ [(.DebugLevelError, .DebugIoOperationNotImplemented)]) := by
  obtain ⟨port, hport⟩ := ports_lookup p hp
  have hb : p % 8 < 8 := Nat.mod_lt _ (by decide)
  have hpull : ∀ m2 : PullupMode, m2 ≠ .PullUp → m2 ≠ .PullNone →
      ∃ s2, PinSetPullup s p m2 = some s2 ∧
        s2.debug = s.debug ++ [(.DebugLevelError, .DebugIoOperationNotImplemented)] := by
    intro m2 h1 h2
    exact ⟨MICROFLO_DEBUG s .DebugLevelError .DebugIoOperationNotImplemented,
      by simp [PinSetPullup, h1, h2], rfl⟩
  refine ⟨port, ?_⟩
  cases m with
  | OutputPin =>
    exact ⟨_, hport, by simpa [PinSetMode] using avrPinSet_eq s .DDR p port hport,
      fun _ => store_set_bit s _ _ hb, (fun h => by cases h), fun h => absurd rfl h,
      rfl, fun r hr => store_mem_other _ _ _ _ hr, hpull⟩
  | InputPin =>
    exact ⟨_, hport, by simpa [PinSetMode] using avrPinClear_eq s .DDR p port hport,
      (fun h => by cases h), fun _ => store_clear_bit s _ _, fun _ h => absurd rfl h,
      rfl, fun r hr => store_mem_other _ _ _ _ hr, hpull⟩
  | other raw =>
    exact ⟨s, hport, by simp [PinSetMode],
      (fun h => by cases h), (fun h => by cases h), fun _ _ => rfl,
      rfl, fun _ _ => rfl, hpull⟩

/-- Witness of C8: pin 5 of the reset state, set to output. -/
theorem C8_PinSetMode_cases_witness :
    5 < 48 ∧
    ∃ port s', ports[5 / 8]? = some port ∧
      PinSetMode Machine.init 5 .OutputPin = some s' ∧
      (PinMode.OutputPin = .OutputPin → (s'.mem port.DDR).testBit (5 % 8) = true) ∧
      (PinMode.OutputPin = .InputPin → (s'.mem port.DDR).testBit (5 % 8) = false) ∧
      (PinMode.OutputPin ≠ .OutputPin → PinMode.OutputPin ≠ .InputPin →
        s' = Machine.init) ∧
      s'.debug = Machine.init.debug ∧
      (∀ r, r ≠ port.DDR → s'.mem r = Machine.init.mem r) ∧
      (∀ m2 : PullupMode, m2 ≠ .PullUp → m2 ≠ .PullNone →
        ∃ s2, PinSetPullup Machine.init 5 m2 = some s2 ∧
          s2.debug = Machine.init.debug
            ++ [(.DebugLevelError, .DebugIoOperationNotImplemented)]) :=
  ⟨by decide, C8_PinSetMode_cases Machine.init 5 (by decide) .OutputPin⟩

/-! ## Unimplemented capabilities -/

/-- C4: for every state and every argument, each of the seven unimplemented
members (`SerialBegin`, `SerialDataAvailable`, `SerialRead`, `SerialWrite`,
`AnalogRead`, `PwmWrite`, `AttachExternalInterrupt`) appends exactly one
diagnostic (`DebugLevelError`, `DebugIoOperationNotImplemented`), leaves all
registers and the tick counter unchanged, and the three that return a value
return 0. -/
theorem C4_unimplemented_members (s : Machine) :
    (∀ dev baud,
      (SerialBegin s dev baud).debug
          = s.debug ++ [(.DebugLevelError, .DebugIoOperationNotImplemented)] ∧
        (SerialBegin s dev baud).mem = s.mem ∧
        (SerialBegin s dev baud).g_millis = s.g_millis) ∧
    (∀ dev,
      (SerialDataAvailable s dev).1.debug
          = s.debug ++ [(.DebugLevelError, .DebugIoOperationNotImplemented)] ∧
        (SerialDataAvailable s dev).1.mem = s.mem ∧
        (SerialDataAvailable s dev).1.g_millis = s.g_millis ∧
        (SerialDataAvailable s dev).2 = 0) ∧
    (∀ dev,
      (SerialRead s dev).1.debug
          = s.debug ++ [(.DebugLevelError, .DebugIoOperationNotImplemented)] ∧
        (SerialRead s dev).1.mem = s.mem ∧
        (SerialRead s dev).1.g_millis = s.g_millis ∧
        (SerialRead s dev).2 = 0) ∧
    (∀ dev b,
      (SerialWrite s dev b).debug
          = s.debug ++ [(.DebugLevelError, .DebugIoOperationNotImplemented)] ∧
        (SerialWrite s dev b).mem = s.mem ∧
        (SerialWrite s dev b).g_millis = s.g_millis) ∧
    (∀ pin,
      (AnalogRead s pin).1.debug
          = s.debug ++ [(.DebugLevelError, .DebugIoOperationNotImplemented)] ∧
        (AnalogRead s pin).1.mem = s.mem ∧
        (AnalogRead s pin).1.g_millis = s.g_millis ∧
        (AnalogRead s pin).2 = 0) ∧
    (∀ pin duty,
      (PwmWrite s pin duty).debug
          = s.debug ++ [(.DebugLevelError, .DebugIoOperationNotImplemented)] ∧
        (PwmWrite s pin duty).mem = s.mem ∧
        (PwmWrite s pin duty).g_millis = s.g_millis) ∧
    (∀ interrupt mode func user,
      (AttachExternalInterrupt s interrupt mode func user).debug
          = s.debug ++ [(.DebugLevelError, .DebugIoOperationNotImplemented)] ∧
        (AttachExternalInterrupt s interrupt mode func user).mem = s.mem ∧
        (AttachExternalInterrupt s interrupt mode func user).g_millis
          = s.g_millis) := by
  refine ⟨?_, ?_, ?_, ?_, ?_, ?_, ?_⟩ <;> intros <;> simp [SerialBegin,
    SerialDataAvailable, SerialRead, SerialWrite, AnalogRead,
    PwmWrite, AttachExternalInterrupt, MICROFLO_DEBUG]

/-! ## Arithmetic of `long` -/

theorem wrapLong_eq (x : Int) :
    wrapLong x = (x + 2147483648) % 4294967296 - 2147483648 := by
  simp [wrapLong, LONG_BITS]

theorem isLong_iff (x : Int) : IsLong x ↔ -2147483648 ≤ x ∧ x < 2147483648 := by
  simp [IsLong, LONG_BITS]

theorem wrapLong_isLong (x : Int) : IsLong (wrapLong x) := by
  rw [isLong_iff, wrapLong_eq]; omega

theorem wrapLong_of_isLong (x : Int) (h : IsLong x) : wrapLong x = x := by
  rw [isLong_iff] at h; rw [wrapLong_eq]; omega

theorem wrapLong_add (x k : Int) : wrapLong (wrapLong x + k) = wrapLong (x + k) := by
  simp only [wrapLong_eq]; omega

theorem longOfBytes_longByte (x : Int) (h : IsLong x) :
    longOfBytes [longByte x 0, longByte x 1, longByte x 2, longByte x 3] = x := by
  rw [isLong_iff] at h
  simp only [longOfBytes, longByte, List.foldr, wrapLong_eq, LONG_BITS]
  norm_num
  omega

/-! ## The tick counter -/

theorem ISR_g_millis (s : Machine) :
    (ISR_TIMER1_COMPA_vect s).g_millis = wrapLong (s.g_millis + 1) := rfl

/-- After `k` runs of the handler the counter holds the start value plus `k`,
reduced to a `long`. -/
theorem ISR_iterate_g_millis (s : Machine) (hs : IsLong s.g_millis) (k : Nat) :
    (ISR_TIMER1_COMPA_vect^[k] s).g_millis = wrapLong (s.g_millis + k) := by
  induction k with
  | zero => simpa using (wrapLong_of_isLong _ hs).symm
  | succ n ih =>
    rw [Function.iterate_succ_apply', ISR_g_millis, ih, wrapLong_add]
    push_cast
    ring_nf

theorem queryResults_replicate_fire (k : Nat) (s : Machine) (es : List Event) :
    queryResults s (List.replicate k Event.fire ++ es)
      = queryResults (ISR_TIMER1_COMPA_vect^[k] s) es := by
  induction k generalizing s with
  | zero => rfl
  | succ n ih =>
    rw [List.replicate_succ, List.cons_append, queryResults, ih,
      Function.iterate_succ_apply]

/-- C2: for every starting value of the tick counter (a `long`) and every `k`,
if the interrupt handler runs exactly `k` times between two calls of
`TimerCurrentMs`, the second call returns the result of the first plus `k`
reduced modulo `2 ^ 32` into the range of a `long`; the difference of the two
results is congruent to `k` modulo `2 ^ 32`, and with `k = 0` the results are
equal. -/
theorem C2_TimerCurrentMs_after_k_ticks (s : Machine) (hs : IsLong s.g_millis) (k : Nat) :
    queryResults s (Event.query :: (List.replicate k Event.fire ++ [Event.query]))
        = [TimerCurrentMs s, wrapLong (TimerCurrentMs s + k)] ∧
      TimerCurrentMs (ISR_TIMER1_COMPA_vect^[k] s) = wrapLong (TimerCurrentMs s + k) ∧
      (TimerCurrentMs (ISR_TIMER1_COMPA_vect^[k] s)
        - (TimerCurrentMs s + k)) % 2 ^ LONG_BITS = 0 ∧
      TimerCurrentMs (ISR_TIMER1_COMPA_vect^[0] s) = TimerCurrentMs s := by
  have h := ISR_iterate_g_millis s hs k
  refine ⟨?_, h, ?_, rfl⟩
  · rw [queryResults, queryResults_replicate_fire, queryResults, queryResults,
      TimerCurrentMs, TimerCurrentMs, h]
  · simp only [TimerCurrentMs, h, wrapLong_eq, LONG_BITS]
    norm_num
    omega

/-- Witness of C2: five ticks from the reset state; the second query returns 5. -/
theorem C2_TimerCurrentMs_after_k_ticks_witness :
    IsLong Machine.init.g_millis ∧
    queryResults Machine.init
          (Event.query :: (List.replicate 5 Event.fire ++ [Event.query]))
        = [TimerCurrentMs Machine.init, wrapLong (TimerCurrentMs Machine.init + (5 : Nat))] ∧
      TimerCurrentMs (ISR_TIMER1_COMPA_vect^[5] Machine.init)
        = wrapLong (TimerCurrentMs Machine.init + (5 : Nat)) ∧
      (TimerCurrentMs (ISR_TIMER1_COMPA_vect^[5] Machine.init)
        - (TimerCurrentMs Machine.init + (5 : Nat))) % 2 ^ LONG_BITS = 0 ∧
      TimerCurrentMs (ISR_TIMER1_COMPA_vect^[0] Machine.init)
        = TimerCurrentMs Machine.init :=
  ⟨by decide, C2_TimerCurrentMs_after_k_ticks Machine.init (by decide) 5⟩

/-- While the counter cannot reach `2 ^ 31`, every later query result is at least
the current counter and the results are ordered. -/
theorem queryResults_sorted (es : List Event) :
    ∀ s : Machine, IsLong s.g_millis →
      s.g_millis + (es.count Event.fire : Int) < 2 ^ (LONG_BITS - 1) →
      (∀ y ∈ queryResults s es, s.g_millis ≤ y) ∧
        List.Pairwise (· ≤ ·) (queryResults s es) := by
  induction es with
  | nil => intro s _ _; simp [queryResults]
  | cons e es ih =>
    intro s hs hlt
    cases e with
    | fire =>
      have hcount : (List.count Event.fire (Event.fire :: es) : Int)
          = (List.count Event.fire es : Int) + 1 := by
        simp
      rw [hcount] at hlt
      have hnn : (0 : Int) ≤ (List.count Event.fire es : Int) := Int.natCast_nonneg _
      have hg : (ISR_TIMER1_COMPA_vect s).g_millis = s.g_millis + 1 := by
        rw [ISR_g_millis]
        apply wrapLong_of_isLong
        rw [isLong_iff] at hs ⊢
        simp only [LONG_BITS] at hlt
        norm_num at hlt
        omega
      have hs' : IsLong (ISR_TIMER1_COMPA_vect s).g_millis := by
        rw [ISR_g_millis]; exact wrapLong_isLong _
      obtain ⟨hlow, hpw⟩ := ih (ISR_TIMER1_COMPA_vect s) hs' (by rw [hg]; omega)
      refine ⟨fun y hy => ?_, hpw⟩
      have := hlow y hy
      rw [hg] at this
      omega
    | query =>
      have hcount : (List.count Event.fire (Event.query :: es) : Int)
          = (List.count Event.fire es : Int) := by
        simp
      rw [hcount] at hlt
      obtain ⟨hlow, hpw⟩ := ih s hs hlt
      refine ⟨fun y hy => ?_, ?_⟩
      · simp only [queryResults, List.mem_cons] at hy
        rcases hy with rfl | hy
        · exact le_refl _
        · exact hlow y hy
      · simp only [queryResults, List.pairwise_cons]
        exact ⟨hlow, hpw⟩

/-- C3, as stated, fails: one query at reset, `2 ^ 31` ticks, one more query.
The results are `0` and then `-2147483648`, which is not non-decreasing. -/
theorem C3_wraparound_counterexample :
    queryResults Machine.init
        (Event.query :: (List.replicate (2 ^ 31) Event.fire ++ [Event.query]))
      = [0, -2147483648] ∧
    ¬ List.Chain' (· ≤ ·)
        (queryResults Machine.init
          (Event.query :: (List.replicate (2 ^ 31) Event.fire ++ [Event.query]))) := by
  have h : queryResults Machine.init
        (Event.query :: (List.replicate (2 ^ 31) Event.fire ++ [Event.query]))
      = [0, -2147483648] := by
    rw [queryResults, queryResults_replicate_fire, queryResults, queryResults,
      TimerCurrentMs, TimerCurrentMs,
      ISR_iterate_g_millis _ (by decide), wrapLong_eq]
    simp [Machine.init]
  refine ⟨h, ?_⟩
  rw [h]
  simp

/-- C3, amended: for every interleaving of timer interrupts and `TimerCurrentMs`
calls from the reset state in which the interrupt fires fewer than `2 ^ 31`
times, each value returned is greater than or equal to the one returned
before it. -/
theorem C3_nondecreasing_below_wraparound (es : List Event)
    (h : es.count Event.fire < 2 ^ 31) :
    List.Chain' (· ≤ ·) (queryResults Machine.init es) := by
  have hlt : Machine.init.g_millis + (es.count Event.fire : Int) < 2 ^ (LONG_BITS - 1) := by
    simp only [Machine.init, LONG_BITS]
    norm_num
    exact_mod_cast h
  exact (queryResults_sorted es Machine.init (by decide) hlt).2.chain'

/-- Witness of the amended C3: query, tick, query, tick, tick, query. -/
theorem C3_nondecreasing_below_wraparound_witness :
    [Event.query, .fire, .query, .fire, .fire, .query].count Event.fire < 2 ^ 31 ∧
    List.Chain' (· ≤ ·)
      (queryResults Machine.init [Event.query, .fire, .query, .fire, .fire, .query]) :=
  ⟨by decide, C3_nondecreasing_below_wraparound _ (by decide)⟩

/-! ## The constructor -/

theorem ctor_OCR1AH (F_CPU : Nat) (s : Machine) :
    (ctor F_CPU s).mem .OCR1AH = MILLISECOND_OVERFLOW F_CPU / 256 % 256 := by
  simp [ctor, Machine.store, Nat.shiftRight_eq_div_pow]

theorem ctor_OCR1AL (F_CPU : Nat) (s : Machine) :
    (ctor F_CPU s).mem .OCR1AL = MILLISECOND_OVERFLOW F_CPU % 256 := by
  simp [ctor, Machine.store]

/-- C9, as stated, fails: with `F_CPU = 524288000` the threshold
`(F_CPU / 1000) / 8` is 65536, which does not fit the two 8-bit compare
registers; both are loaded with 0. -/
theorem C9_threshold_counterexample :
    MILLISECOND_OVERFLOW 524288000 = 65536 ∧
    (ctor 524288000 Machine.init).mem .OCR1AH = 0 ∧
    (ctor 524288000 Machine.init).mem .OCR1AL = 0 ∧
    (ctor 524288000 Machine.init).mem .OCR1AH * 256
        + (ctor 524288000 Machine.init).mem .OCR1AL
      ≠ (524288000 / 1000) / 8 := by
  refine ⟨by decide, ?_, ?_, ?_⟩
  · rw [ctor_OCR1AH]; decide
  · rw [ctor_OCR1AL]; decide
  · rw [ctor_OCR1AH, ctor_OCR1AL]; decide

/-- C9, amended: for every clock frequency `F_CPU` below 524,288,000 (so that
`(F_CPU / 1000) / 8` fits in 16 bits) and every prior state, after construction
`OCR1AH * 256 + OCR1AL` equals `(F_CPU / 1000) / 8`; for any `F_CPU` it equals
that threshold modulo 65536. For `F_CPU = 16,000,000` the threshold is 2000,
`OCR1AH = 7` and `OCR1AL = 208`. -/
theorem C9_threshold_loaded (F_CPU : Nat) (s : Machine) (h : F_CPU < 524288000) :
    (ctor F_CPU s).mem .OCR1AH * 256 + (ctor F_CPU s).mem .OCR1AL
        = (F_CPU / 1000) / 8 ∧
      (∀ F : Nat, (ctor F s).mem .OCR1AH * 256 + (ctor F s).mem .OCR1AL
        = ((F / 1000) / 8) % 65536) ∧
      MILLISECOND_OVERFLOW 16000000 = 2000 ∧
      (ctor 16000000 s).mem .OCR1AH = 7 ∧
      (ctor 16000000 s).mem .OCR1AL = 208 := by
  refine ⟨?_, ?_, by decide, ?_, ?_⟩
  · rw [ctor_OCR1AH, ctor_OCR1AL, MILLISECOND_OVERFLOW]; omega
  · intro F
    rw [ctor_OCR1AH, ctor_OCR1AL, MILLISECOND_OVERFLOW]; omega
  · rw [ctor_OCR1AH]; decide
  · rw [ctor_OCR1AL]; decide

/-- Witness of the amended C9: a 16 MHz clock on the reset state. -/
theorem C9_threshold_loaded_witness :
    16000000 < 524288000 ∧
    (ctor 16000000 Machine.init).mem .OCR1AH * 256
        + (ctor 16000000 Machine.init).mem .OCR1AL
        = (16000000 / 1000) / 8 ∧
      (∀ F : Nat, (ctor F Machine.init).mem .OCR1AH * 256
          + (ctor F Machine.init).mem .OCR1AL
        = ((F / 1000) / 8) % 65536) ∧
      MILLISECOND_OVERFLOW 16000000 = 2000 ∧
      (ctor 16000000 Machine.init).mem .OCR1AH = 7 ∧
      (ctor 16000000 Machine.init).mem .OCR1AL = 208 :=
  ⟨by decide, C9_threshold_loaded 16000000 Machine.init (by decide)⟩

/-! ## The atomic read -/

/-- Without the atomic block the read can be torn: with the counter at 255 and a
compare match after the first load, the bytes read are `0xFF` (old) and
`0x01, 0x00, 0x00` (new), that is 511, neither 255 nor 256. -/
theorem unguardedRead_tears :
    longOfBytes
      (Cpu.runCode (fun j => j == 1) 0
        ⟨{ Machine.init with g_millis := 255 }, true, false, []⟩
        unguardedRead_code).millis = 511 := by
  decide

theorem Cpu.service_millis (c : Cpu) : c.service.millis = c.millis := by
  unfold Cpu.service; split <;> rfl

theorem Cpu.raise_millis (c : Cpu) (b : Bool) : (c.raise b).millis = c.millis := by
  cases b <;> rfl

/-- A boundary never alters the bytes already loaded. -/
theorem Cpu.boundary_millis (c : Cpu) (b : Bool) :
    ((c.raise b).service).millis = c.millis := by
  rw [Cpu.service_millis, Cpu.raise_millis]

/-- With interrupts disabled a boundary leaves the machine alone, whether or not
a compare match occurs there. -/
theorem Cpu.boundary_masked (c : Cpu) (b : Bool) (h : c.I = false) :
    ((c.raise b).service).m = c.m ∧ ((c.raise b).service).I = false := by
  cases b <;> simp [Cpu.raise, Cpu.service, h]

/-- With interrupts disabled a load appends the next byte of the unchanged
counter. -/
theorem Cpu.load_masked (c : Cpu) (b : Bool) (h : c.I = false) :
    (((c.raise b).service).exec .load).m = c.m ∧
    (((c.raise b).service).exec .load).I = false ∧
    (((c.raise b).service).exec .load).millis
      = c.millis ++ [longByte c.m.g_millis c.millis.length] := by
  obtain ⟨hm, hI⟩ := c.boundary_masked b h
  refine ⟨hm, hI, ?_⟩
  simp only [Cpu.exec, hm, Cpu.boundary_millis]

/-- The four loads and the closing `sei()`, entered with interrupts disabled,
read the four bytes of one and the same counter value. -/
theorem Cpu.runCode_masked_read (irq : Nat → Bool) (j : Nat) (c : Cpu)
    (hI : c.I = false) (hm : c.millis = []) :
    (Cpu.runCode irq j c [.load, .load, .load, .load, .sei]).millis
      = [longByte c.m.g_millis 0, longByte c.m.g_millis 1,
          longByte c.m.g_millis 2, longByte c.m.g_millis 3] := by
  obtain ⟨m1, i1, b1⟩ := c.load_masked (irq j) hI
  obtain ⟨m2, i2, b2⟩ := (((c.raise (irq j)).service).exec .load).load_masked (irq (j + 1)) i1
  obtain ⟨m3, i3, b3⟩ := Cpu.load_masked _ (irq (j + 1 + 1)) i2
  obtain ⟨m4, _, b4⟩ := Cpu.load_masked _ (irq (j + 1 + 1 + 1)) i3
  simp only [Cpu.runCode, Cpu.boundary_millis]
  rw [show ∀ c : Cpu, (c.exec .sei).millis = c.millis from fun _ => rfl,
    Cpu.boundary_millis, b4, b3, b2, b1, m3, m2, m1, hm]
  simp

/-- C10: at whatever instruction boundaries of `TimerCurrentMs` the compare
match of the timer occurs, and whatever the interrupt enable on entry, the
value returned is the counter's full value before the increment (what
`TimerCurrentMs` yields on the state at entry) or its full value after the
increment (what it yields once the handler has run): it is the value after
the increment exactly when the handler ran before the atomic block was
entered, and the value before otherwise. -/
theorem C10_TimerCurrentMs_not_torn (s : Machine) (hs : IsLong s.g_millis) (I : Bool)
    (irq : Nat → Bool) :
    ((TimerCurrentMs_bytes irq s I).2 = TimerCurrentMs s ∨
      (TimerCurrentMs_bytes irq s I).2 = TimerCurrentMs (ISR_TIMER1_COMPA_vect s)) ∧
    (TimerCurrentMs_bytes irq s I).2
      = (if I && irq 0 then wrapLong (s.g_millis + 1) else s.g_millis) := by
  have key : (TimerCurrentMs_bytes irq s I).2
      = (if I && irq 0 then wrapLong (s.g_millis + 1) else s.g_millis) := by
    simp only [TimerCurrentMs_bytes, TimerCurrentMs_code]
    rw [Cpu.runCode, Cpu.runCode_masked_read irq _ _ rfl
      (by simp only [Cpu.exec, Cpu.boundary_millis])]
    cases I <;> cases h0 : irq 0 <;>
      simp [Cpu.raise, Cpu.service, Cpu.exec, ISR_TIMER1_COMPA_vect, h0,
        longOfBytes_longByte _ hs,
        longOfBytes_longByte _ (wrapLong_isLong (s.g_millis + 1))]
  refine ⟨?_, key⟩
  rw [key]
  split
  · exact Or.inr rfl
  · exact Or.inl rfl

/-- Witness of C10: counter 255, interrupts enabled, compare match after the
first byte has been loaded; the call returns 255. -/
theorem C10_TimerCurrentMs_not_torn_witness :
    IsLong ({ Machine.init with g_millis := 255 } : Machine).g_millis ∧
    ((TimerCurrentMs_bytes (fun j => j == 2)
        { Machine.init with g_millis := 255 } true).2
        = TimerCurrentMs { Machine.init with g_millis := 255 } ∨
      (TimerCurrentMs_bytes (fun j => j == 2)
        { Machine.init with g_millis := 255 } true).2
        = TimerCurrentMs (ISR_TIMER1_COMPA_vect { Machine.init with g_millis := 255 })) ∧
    (TimerCurrentMs_bytes (fun j => j == 2)
        { Machine.init with g_millis := 255 } true).2
      = (if true && (fun j => j == 2) 0 then wrapLong (255 + 1) else 255) :=
  ⟨by decide,
    C10_TimerCurrentMs_not_torn { Machine.init with g_millis := 255 } (by decide) true
      (fun j => j == 2)⟩

end MicroFlo
